import Mathlib

/-!
Shallow embedding of `src/producer-consumer/cpp/main.cpp`: a single producer
pushes `(position, number)` entries into a shared deque guarded by a mutex and
condition variable, eight consumers drain it, compute a naive Fibonacci number
and write it into a position-indexed result array; the producer then sets
`production_is_finished` and wakes all consumers.

The concurrency is modelled as a labelled transition system `LStep` over
`SysState`.  A consumer blocked on the condition variable (queue empty and
production not finished) simply has no enabled transition, which is how the
blocking `wait` loop is rendered.  Pure helpers (`fibonacci`,
`random_permutation`) are translated directly from the source.
-/

namespace ProducerConsumer

/-! ### Constants (lines 18-24 of main.cpp) -/

def NUM_CONSUMERS : Nat := 8

def DATA_START : Int := 30

def DATA_END : Int := 45

def DATA_LENGTH : Int := DATA_END - DATA_START

/-! ### fibonacci (lines 32-35)

`int fibonacci(int n) { assert (n >= 1); return n <= 2 ? 1 : fibonacci(n-1) + fibonacci(n-2); }`

The `assert` is modelled by returning `none` when its condition fails; a `some`
result means no assertion fired anywhere in the recursion. -/

def fibonacci (n : Int) : Option Int :=
  if n < 1 then none
  else if n ≤ 2 then some 1
  else
    match fibonacci (n - 1), fibonacci (n - 2) with
    | some a, some b => some (a + b)
    | _, _ => none
termination_by n.toNat
decreasing_by
  · omega
  · omega

/-! ### random_permutation (lines 39-44)

The source builds the vector `[0, 1, ..., length-1]` and calls
`std::random_shuffle(v.begin(), v.end())`, which performs the Fisher-Yates
shuffle: `for (i = 1; i < n; ++i) swap(v[i], v[rand() % (i+1)])`.  The random
source is abstracted as `rng : Nat → Nat` giving the value of the i-th call. -/

def listSwap (l : List Int) (i j : Nat) : List Int :=
  (l.set i (l.getD j 0)).set j (l.getD i 0)

def random_permutation (length : Int) (rng : Nat → Nat) : List Int :=
  let v : List Int := (List.range length.toNat).map Int.ofNat
  (List.range' 1 (v.length - 1)).foldl (fun acc i => listSwap acc i (rng i % (i + 1))) v

/-! ### Buffer (lines 86-104)

The mutex and condition variable have no data content; they are reflected in
the transition semantics below (operations are atomic steps, and a consumer
whose wait condition is false has no enabled step). -/

structure BufferEntry where
  position : Int
  number : Int
deriving DecidableEq, Repr

structure Buffer where
  data : List BufferEntry
  production_is_finished : Bool
deriving DecidableEq, Repr

/-- Appending an entry at the tail, exactly what the producer does at line 173:
`buffer.data.push_back(Buffer::BufferEntry{*it, DATA_START + *it});`.
There is no check of `production_is_finished` in this path. -/
def bufferPush (b : Buffer) (be : BufferEntry) : Buffer :=
  { b with data := b.data ++ [be] }

/-- The closing action of the producer (lines 183-193): set
`production_is_finished` under the mutex, then `notify_all`. -/
def bufferClose (b : Buffer) : Buffer :=
  { b with production_is_finished := true }

/-- The wait condition of the consumer (lines 116-118): the consumer stays
blocked in `cond_var.wait` exactly while `data` is empty and production is not
finished, so it may proceed only when this predicate is true. -/
def waitCondition (b : Buffer) : Bool :=
  !(b.data.isEmpty && !b.production_is_finished)

/-- Result of one dequeue attempt of a consumer once its wait ended. -/
inductive PopResult where
  | item : BufferEntry → PopResult
  | closed : PopResult
deriving DecidableEq, Repr

/-- The consumer body after the wait loop (lines 130-141): if the queue is
empty the consumer is looking at closure (`do_run = !production_is_finished`),
otherwise it unloads the front entry. -/
def popStep (b : Buffer) : PopResult × Buffer :=
  match b.data with
  | [] => (PopResult.closed, b)
  | be :: rest => (PopResult.item be, { b with data := rest })

/-! ### The push contract of the specification

The specification describes `push(item)` as failing with `ClosedQueueError`
when called after `close()`.  This definition follows the specification's
words (not the source) so that it can be compared with `bufferPush`. -/

inductive ClosedQueueError where
  | closedQueueError
deriving DecidableEq, Repr

def pushSpec (b : Buffer) (be : BufferEntry) : Except ClosedQueueError Buffer :=
  if b.production_is_finished then Except.error ClosedQueueError.closedQueueError
  else Except.ok { b with data := b.data ++ [be] }

/-! ### The producer's straight-line event trace (lines 159-196)

For each permutation element the producer pushes an entry and calls
`notify_one`; after the loop it sets the finished flag and calls
`notify_all`.  (The randomized sleep before a push changes no state.) -/

inductive ProducerEvent where
  | pushItem : BufferEntry → ProducerEvent
  | notifyOne : ProducerEvent
  | setFinished : ProducerEvent
  | notifyAll : ProducerEvent
deriving DecidableEq, Repr

def producerEvents (perm : List Int) : List ProducerEvent :=
  (perm.map (fun p =>
    [ProducerEvent.pushItem { position := p, number := DATA_START + p },
     ProducerEvent.notifyOne])).flatten
  ++ [ProducerEvent.setFinished, ProducerEvent.notifyAll]

/-- Recognizer for push events, used to count the producer's pushes. -/
def isPush : ProducerEvent → Bool
  | ProducerEvent.pushItem _ => true
  | _ => false

/-! ### The interleaved system

`SysState` carries the shared buffer, the producer's program counter (the
remaining permutation suffix and whether close has run), the number of
consumer threads still in their loop, and the result array (a partial map,
`none` meaning the slot was never written). -/

def updateResults (r : Int → Option Int) (p : Int) (v : Option Int) : Int → Option Int :=
  fun q => if q = p then v else r q

structure SysState where
  buffer : Buffer
  prodRemaining : List Int
  prodClosed : Bool
  running : Nat
  results : Int → Option Int

/-- Observable step labels: producer pushes and closes, a consumer pops an
entry (computing and storing its Fibonacci number), or a consumer observes
empty-and-finished and exits its loop. -/
inductive Label where
  | push : Int → Label
  | close : Label
  | pop : BufferEntry → Label
  | exitc : Label
deriving DecidableEq, Repr

/-- One atomic step of the system.  Mutual exclusion makes each step atomic;
a consumer has an enabled step only when its wait condition holds, which
renders the blocking `cond_var.wait` loop. -/
inductive LStep : SysState → Label → SysState → Prop where
  | push : ∀ (s : SysState) (p : Int) (rest : List Int),
      s.prodRemaining = p :: rest →
      LStep s (Label.push p)
        { s with
          buffer := bufferPush s.buffer { position := p, number := DATA_START + p },
          prodRemaining := rest }
  | close : ∀ (s : SysState),
      s.prodRemaining = [] →
      s.prodClosed = false →
      LStep s Label.close
        { s with buffer := bufferClose s.buffer, prodClosed := true }
  | pop : ∀ (s : SysState) (be : BufferEntry) (rest : List BufferEntry),
      0 < s.running →
      s.buffer.data = be :: rest →
      LStep s (Label.pop be)
        { s with
          buffer := { s.buffer with data := rest },
          results := updateResults s.results be.position (fibonacci be.number) }
  | exitc : ∀ (s : SysState),
      0 < s.running →
      s.buffer.data = [] →
      s.buffer.production_is_finished = true →
      LStep s Label.exitc { s with running := s.running - 1 }

/-- Finite executions: `Trace s tr u` means the system can go from `s` to `u`
through the steps labelled by `tr`. -/
inductive Trace : SysState → List Label → SysState → Prop where
  | nil : ∀ s, Trace s [] s
  | cons : ∀ (s : SysState) (l : Label) (t : SysState) (ls : List Label) (u : SysState),
      LStep s l t → Trace t ls u → Trace s (l :: ls) u

/-- The state right after `main` spawned everything (line 199-221):
empty buffer, the whole permutation still to produce, `c` consumers running,
no result slot written. -/
def initState (c : Nat) (perm : List Int) : SysState :=
  { buffer := { data := [], production_is_finished := false },
    prodRemaining := perm,
    prodClosed := false,
    running := c,
    results := fun _ => none }

/-! ### Trace observations -/

/-- Positions pushed by the producer, in push order. -/
def pushedPos : List Label → List Int
  | [] => []
  | Label.push p :: tr => p :: pushedPos tr
  | _ :: tr => pushedPos tr

/-- Positions of entries popped by consumers, in pop order. -/
def poppedPos : List Label → List Int
  | [] => []
  | Label.pop be :: tr => be.position :: poppedPos tr
  | _ :: tr => poppedPos tr

/-- Entries popped by consumers, in pop order. -/
def popEntries : List Label → List BufferEntry
  | [] => []
  | Label.pop be :: tr => be :: popEntries tr
  | _ :: tr => popEntries tr

/-- Progress measure: every step of the system strictly decreases it, which
bounds the length of every execution. -/
def sysMeasure (s : SysState) : Nat :=
  2 * s.prodRemaining.length + (bif s.prodClosed then 0 else 1)
    + s.buffer.data.length + s.running

/-- Inductive invariant of the system, relating a reachable state to the trace
that led to it from `initState c perm`. -/
structure Inv (perm : List Int) (c : Nat) (tr : List Label) (s : SysState) : Prop where
  hperm : perm = pushedPos tr ++ s.prodRemaining
  hqueue : pushedPos tr = poppedPos tr ++ s.buffer.data.map BufferEntry.position
  hentries : ∀ be ∈ s.buffer.data, be.number = DATA_START + be.position
  hpopnum : ∀ be ∈ popEntries tr, be.number = DATA_START + be.position
  hflag : s.buffer.production_is_finished = s.prodClosed
  hclosed : s.prodClosed = true → s.prodRemaining = []
  hrun : s.running ≤ c
  hrunflag : s.running < c → s.buffer.production_is_finished = true
  hdrain : s.running = 0 → 0 < c → s.buffer.data = []
  hres : ∀ p : Int,
    s.results p = if p ∈ poppedPos tr then fibonacci (DATA_START + p) else none

/-! ### A concrete complete execution (used to instantiate the theorems)

With the random source constantly `0`, `random_permutation DATA_LENGTH` is
`[14, 0, 1, ..., 13]`.  The run below pushes everything, closes, lets
consumers pop everything, and then lets all eight consumers exit. -/

def witnessPerm : List Int := [14, 0, 1, 2, 3, 4, 5, 6, 7, 8, 9, 10, 11, 12, 13]

def witnessTrace : List Label :=
  witnessPerm.map Label.push ++ [Label.close]
    ++ witnessPerm.map (fun p => Label.pop { position := p, number := DATA_START + p })
    ++ [Label.exitc, Label.exitc, Label.exitc, Label.exitc,
        Label.exitc, Label.exitc, Label.exitc, Label.exitc]

def witnessFinal : SysState :=
  { buffer := { data := [], production_is_finished := true },
    prodRemaining := [],
    prodClosed := true,
    running := 0,
    results := witnessPerm.foldl
      (fun r p => updateResults r p (fibonacci (DATA_START + p))) (fun _ => none) }

/-! ## Lemmas about the pure helpers -/

theorem fibonacci_eq_fib : ∀ (k : Nat) (n : Int), n.toNat = k → 1 ≤ n →
    fibonacci n = some ((Nat.fib k : Int)) := by
  intro k
  induction k using Nat.strong_induction_on with
  | _ k ih =>
    intro n hk hn
    rw [fibonacci]
    have h1 : ¬ (n < 1) := by omega
    rw [if_neg h1]
    by_cases h2 : n ≤ 2
    · rw [if_pos h2]
      have hk12 : k = 1 ∨ k = 2 := by omega
      rcases hk12 with h | h <;> subst h <;> rfl
    · rw [if_neg h2]
      have e1 : fibonacci (n - 1) = some ((Nat.fib (k - 1) : Int)) :=
        ih (k - 1) (by omega) (n - 1) (by omega) (by omega)
      have e2 : fibonacci (n - 2) = some ((Nat.fib (k - 2) : Int)) :=
        ih (k - 2) (by omega) (n - 2) (by omega) (by omega)
      rw [e1, e2]
      have hfib : Nat.fib k = Nat.fib (k - 1) + Nat.fib (k - 2) := by
        have h3 := @Nat.fib_add_two (k - 2)
        have hke : k - 2 + 2 = k := by omega
        have hke1 : k - 2 + 1 = k - 1 := by omega
        rw [hke, hke1] at h3
        omega
      rw [hfib]
      push_cast
      rfl

theorem fibonacci_isSome (n : Int) (hn : 1 ≤ n) : (fibonacci n).isSome := by
  rw [fibonacci_eq_fib n.toNat n rfl hn]
  rfl

theorem length_listSwap (l : List Int) (i j : Nat) : (listSwap l i j).length = l.length := by
  simp [listSwap]

theorem count_set_aux (x a : Int) : ∀ (l : List Int) (i : Nat) (h : i < l.length),
    (l.set i a).count x + (if l.get ⟨i, h⟩ = x then 1 else 0)
      = l.count x + (if a = x then 1 else 0) := by
  intro l
  induction l with
  | nil => intro i h; simp at h
  | cons hd tl ih =>
    intro i h
    cases i with
    | zero =>
      simp only [List.set, List.count_cons, List.get, beq_iff_eq]
      split_ifs <;> omega
    | succ n =>
      have hn : n < tl.length := by simpa using h
      have hih := ih n hn
      simp only [List.set, List.count_cons, List.get, beq_iff_eq]
      split_ifs at hih ⊢ <;> omega

theorem count_listSwap (l : List Int) (i j : Nat) (hi : i < l.length) (hj : j < l.length)
    (x : Int) : (listSwap l i j).count x = l.count x := by
  have hb : l.getD j 0 = l.get ⟨j, hj⟩ := by
    rw [List.getD_eq_getElem l 0 hj, List.get_eq_getElem]
  have ha : l.getD i 0 = l.get ⟨i, hi⟩ := by
    rw [List.getD_eq_getElem l 0 hi, List.get_eq_getElem]
  unfold listSwap
  rw [hb, ha]
  have hj2 : j < (l.set i (l.get ⟨j, hj⟩)).length := by
    rw [List.length_set]; exact hj
  have hmj : (l.set i (l.get ⟨j, hj⟩)).get ⟨j, hj2⟩ = l.get ⟨j, hj⟩ := by
    by_cases hij : i = j
    · subst hij
      simp
    · simp [List.getElem_set_ne hij]
  have h1 := count_set_aux x (l.get ⟨i, hi⟩) (l.set i (l.get ⟨j, hj⟩)) j hj2
  have h2 := count_set_aux x (l.get ⟨j, hj⟩) l i hi
  rw [hmj] at h1
  exact Nat.add_right_cancel (h1.trans h2)

theorem count_foldl_swap (rng : Nat → Nat) (x : Int) :
    ∀ (idxs : List Nat) (l : List Int), (∀ i ∈ idxs, i < l.length) →
      (idxs.foldl (fun acc i => listSwap acc i (rng i % (i + 1))) l).count x = l.count x := by
  intro idxs
  induction idxs with
  | nil => intro l _; rfl
  | cons i rest ih =>
    intro l h
    have hi : i < l.length := h i (List.mem_cons_self i rest)
    have hji : rng i % (i + 1) < l.length :=
      lt_of_le_of_lt (Nat.le_of_lt_succ (Nat.mod_lt _ (Nat.succ_pos i))) hi
    simp only [List.foldl_cons]
    rw [ih (listSwap l i (rng i % (i + 1)))]
    · exact count_listSwap l i (rng i % (i + 1)) hi hji x
    · intro m hm
      rw [length_listSwap]
      exact h m (List.mem_cons_of_mem i hm)

theorem length_foldl_swap (rng : Nat → Nat) :
    ∀ (idxs : List Nat) (l : List Int),
      (idxs.foldl (fun acc i => listSwap acc i (rng i % (i + 1))) l).length = l.length := by
  intro idxs
  induction idxs with
  | nil => intro l; rfl
  | cons i rest ih =>
    intro l
    simp only [List.foldl_cons]
    rw [ih, length_listSwap]

theorem count_range_map (n : Nat) (x : Int) :
    ((List.range n).map Int.ofNat).count x = if 0 ≤ x ∧ x < (n : Int) then 1 else 0 := by
  induction n with
  | zero =>
    simp only [List.range_zero, List.map_nil, List.count_nil]
    split_ifs with h
    · omega
    · rfl
  | succ m ih =>
    rw [List.range_succ, List.map_append, List.count_append, ih]
    simp only [List.map_cons, List.map_nil, List.count_singleton, beq_iff_eq,
      Int.ofNat_eq_natCast]
    split_ifs <;> omega

theorem count_random_permutation (len : Int) (rng : Nat → Nat) (x : Int) :
    (random_permutation len rng).count x = if 0 ≤ x ∧ x < len then 1 else 0 := by
  unfold random_permutation
  rw [count_foldl_swap]
  · rw [count_range_map]
    split_ifs with h1 h2 <;> first | rfl | (exfalso; omega)
  · intro i hi
    rw [List.length_map, List.length_range] at hi ⊢
    have hmem := List.mem_range'_1.mp hi
    omega

theorem length_random_permutation (len : Int) (rng : Nat → Nat) :
    (random_permutation len rng).length = len.toNat := by
  unfold random_permutation
  rw [length_foldl_swap]
  simp

theorem mem_random_permutation (len : Int) (rng : Nat → Nat) (x : Int) :
    x ∈ random_permutation len rng ↔ 0 ≤ x ∧ x < len := by
  rw [← List.count_pos_iff, count_random_permutation]
  split_ifs with h
  · simp [h]
  · simp [h]

theorem nodup_random_permutation (len : Int) (rng : Nat → Nat) :
    (random_permutation len rng).Nodup := by
  rw [List.nodup_iff_count_le_one]
  intro a
  rw [count_random_permutation]
  split_ifs <;> omega

/-! ## Trace observation lemmas -/

theorem pushedPos_append (t1 t2 : List Label) :
    pushedPos (t1 ++ t2) = pushedPos t1 ++ pushedPos t2 := by
  induction t1 with
  | nil => rfl
  | cons hd tl ih => cases hd <;> simp [pushedPos, ih]

theorem poppedPos_append (t1 t2 : List Label) :
    poppedPos (t1 ++ t2) = poppedPos t1 ++ poppedPos t2 := by
  induction t1 with
  | nil => rfl
  | cons hd tl ih => cases hd <;> simp [poppedPos, ih]

theorem popEntries_append (t1 t2 : List Label) :
    popEntries (t1 ++ t2) = popEntries t1 ++ popEntries t2 := by
  induction t1 with
  | nil => rfl
  | cons hd tl ih => cases hd <;> simp [popEntries, ih]

theorem poppedPos_eq_map (tr : List Label) :
    poppedPos tr = (popEntries tr).map BufferEntry.position := by
  induction tr with
  | nil => rfl
  | cons hd tl ih => cases hd <;> simp [poppedPos, popEntries, ih]

/-! ## The invariant holds along every execution -/

theorem inv_init (perm : List Int) (c : Nat) : Inv perm c [] (initState c perm) := by
  refine ⟨?_, ?_, ?_, ?_, ?_, ?_, ?_, ?_, ?_, ?_⟩ <;>
    simp [initState, pushedPos, poppedPos, popEntries]

theorem inv_step {perm : List Int} {c : Nat} {tr : List Label} {s u : SysState} {l : Label}
    (inv : Inv perm c tr s) (hs : LStep s l u) : Inv perm c (tr ++ [l]) u := by
  obtain ⟨h1, h2, h3, h4, h5, h6, h7, h8, h9, h10⟩ := inv
  cases hs with
  | push p rest hrem =>
    refine ⟨?_, ?_, ?_, ?_, ?_, ?_, ?_, ?_, ?_, ?_⟩
    · rw [pushedPos_append]
      simp only [pushedPos]
      rw [h1, hrem]
      simp
    · rw [pushedPos_append, poppedPos_append]
      simp only [pushedPos, poppedPos, bufferPush]
      simp only [List.append_nil]
      rw [h2]
      simp
    · intro be hbe
      simp only [bufferPush, List.mem_append, List.mem_singleton] at hbe
      rcases hbe with hbe | hbe
      · exact h3 be hbe
      · subst hbe; rfl
    · intro be hbe
      rw [popEntries_append] at hbe
      simp only [popEntries, List.append_nil] at hbe
      exact h4 be hbe
    · simpa [bufferPush] using h5
    · intro hcl
      simp only at hcl
      have hrem2 := h6 hcl
      rw [hrem] at hrem2
      cases hrem2
    · exact h7
    · intro hlt
      simp only [bufferPush]
      exact h8 hlt
    · intro hr0 hc
      exfalso
      have hr0' : s.running = 0 := hr0
      have hlt : s.running < c := by omega
      have hf := h8 hlt
      rw [h5] at hf
      have hrem2 := h6 hf
      rw [hrem] at hrem2
      cases hrem2
    · intro p2
      rw [poppedPos_append]
      simp only [poppedPos, List.append_nil]
      exact h10 p2
  | close hrem hcl =>
    refine ⟨?_, ?_, ?_, ?_, ?_, ?_, ?_, ?_, ?_, ?_⟩
    · rw [pushedPos_append]
      simp only [pushedPos, List.append_nil]
      exact h1
    · rw [pushedPos_append, poppedPos_append]
      simp only [pushedPos, poppedPos, List.append_nil, bufferClose]
      exact h2
    · intro be hbe
      exact h3 be hbe
    · intro be hbe
      rw [popEntries_append] at hbe
      simp only [popEntries, List.append_nil] at hbe
      exact h4 be hbe
    · simp [bufferClose]
    · intro _
      exact hrem
    · exact h7
    · intro _
      simp [bufferClose]
    · intro hr0 hc
      exact h9 hr0 hc
    · intro p2
      rw [poppedPos_append]
      simp only [poppedPos, List.append_nil]
      exact h10 p2
  | pop be rest hrun0 hdata =>
    refine ⟨?_, ?_, ?_, ?_, ?_, ?_, ?_, ?_, ?_, ?_⟩
    · rw [pushedPos_append]
      simp only [pushedPos, List.append_nil]
      exact h1
    · rw [pushedPos_append, poppedPos_append]
      simp only [pushedPos, poppedPos, List.append_nil]
      rw [h2, hdata]
      simp
    · intro be2 hbe2
      apply h3 be2
      rw [hdata]
      exact List.mem_cons_of_mem be hbe2
    · intro be2 hbe2
      rw [popEntries_append] at hbe2
      simp only [popEntries, List.mem_append, List.mem_singleton] at hbe2
      rcases hbe2 with hbe2 | hbe2
      · exact h4 be2 hbe2
      · subst hbe2
        apply h3 be2
        rw [hdata]
        exact List.mem_cons_self be2 rest
    · exact h5
    · exact h6
    · exact h7
    · exact h8
    · intro hr0 _
      have hr0' : s.running = 0 := hr0
      omega
    · intro q
      rw [poppedPos_append]
      simp only [poppedPos, List.append_nil, updateResults]
      by_cases hq : q = be.position
      · subst hq
        rw [if_pos rfl]
        have hnum : be.number = DATA_START + be.position := by
          apply h3 be
          rw [hdata]
          exact List.mem_cons_self be rest
        rw [hnum]
        rw [if_pos (by simp)]
      · rw [if_neg hq]
        rw [h10 q]
        by_cases hmem : q ∈ poppedPos tr
        · rw [if_pos hmem, if_pos (by simp [hmem])]
        · rw [if_neg hmem, if_neg (by simp [hmem, hq])]
  | exitc hrun0 hdata hfin =>
    refine ⟨?_, ?_, ?_, ?_, ?_, ?_, ?_, ?_, ?_, ?_⟩
    · rw [pushedPos_append]
      simp only [pushedPos, List.append_nil]
      exact h1
    · rw [pushedPos_append, poppedPos_append]
      simp only [pushedPos, poppedPos, List.append_nil]
      exact h2
    · intro be hbe
      exact h3 be hbe
    · intro be hbe
      rw [popEntries_append] at hbe
      simp only [popEntries, List.append_nil] at hbe
      exact h4 be hbe
    · exact h5
    · exact h6
    · show s.running - 1 ≤ c
      omega
    · intro _
      exact hfin
    · intro _ _
      exact hdata
    · intro q
      rw [poppedPos_append]
      simp only [poppedPos, List.append_nil]
      exact h10 q

theorem inv_trace {perm : List Int} {c : Nat} :
    ∀ {s : SysState} {tr : List Label} {u : SysState}, Trace s tr u →
      ∀ {pre : List Label}, Inv perm c pre s → Inv perm c (pre ++ tr) u := by
  intro s tr u htr
  induction htr with
  | nil s => intro pre hpre; simpa using hpre
  | cons s l t ls u hstep hrest ih =>
    intro pre hpre
    have h1 : Inv perm c (pre ++ [l]) t := inv_step hpre hstep
    have h2 := ih h1
    rw [List.append_assoc] at h2
    simpa using h2

theorem inv_of_trace {perm : List Int} {c : Nat} {tr : List Label} {s : SysState}
    (htr : Trace (initState c perm) tr s) : Inv perm c tr s := by
  have h := inv_trace htr (inv_init perm c)
  simpa using h

/-! ## Terminal states and termination measure -/

theorem terminal_state {perm : List Int} {c : Nat} {tr : List Label} {s : SysState}
    (htr : Trace (initState c perm) tr s)
    (hrun : s.running = 0) (hcl : s.prodClosed = true) (hc : 0 < c) :
    pushedPos tr = perm ∧ poppedPos tr = perm ∧ s.buffer.data = [] ∧
    ∀ p : Int, s.results p = if p ∈ perm then fibonacci (DATA_START + p) else none := by
  obtain ⟨h1, h2, h3, h4, h5, h6, h7, h8, h9, h10⟩ := inv_of_trace htr
  have hrem : s.prodRemaining = [] := h6 hcl
  have hdata : s.buffer.data = [] := h9 hrun hc
  rw [hrem, List.append_nil] at h1
  rw [hdata] at h2
  simp only [List.map_nil, List.append_nil] at h2
  refine ⟨h1.symm, ?_, hdata, ?_⟩
  · rw [← h2, ← h1]
  · intro p
    rw [h10 p, ← h2, ← h1]

theorem sysMeasure_step {s u : SysState} {l : Label} (hs : LStep s l u) :
    sysMeasure u < sysMeasure s := by
  cases hs with
  | push p rest hrem =>
    unfold sysMeasure
    simp only [bufferPush, List.length_append, List.length_cons, hrem,
      List.length_singleton]
    cases s.prodClosed <;>
      simp only [Bool.cond_true, Bool.cond_false, List.length_nil] <;> omega
  | close hrem hcl =>
    unfold sysMeasure
    simp only [bufferClose, hrem, hcl, Bool.cond_true, Bool.cond_false, List.length_nil]
    omega
  | pop be rest hrun0 hdata =>
    unfold sysMeasure
    simp only [hdata, List.length_cons]
    cases s.prodClosed <;>
      simp only [Bool.cond_true, Bool.cond_false, List.length_nil] <;> omega
  | exitc hrun0 hdata hfin =>
    unfold sysMeasure
    simp only
    cases s.prodClosed <;>
      simp only [Bool.cond_true, Bool.cond_false, List.length_nil] <;> omega

theorem trace_length_le {s u : SysState} {tr : List Label} (htr : Trace s tr u) :
    tr.length + sysMeasure u ≤ sysMeasure s := by
  induction htr with
  | nil s => simp
  | cons s l t ls u hstep hrest ih =>
    have h := sysMeasure_step hstep
    simp only [List.length_cons]
    omega

theorem stuck_running_zero {perm : List Int} {c : Nat} {tr : List Label} {s : SysState}
    (htr : Trace (initState c perm) tr s)
    (hstuck : ∀ (l : Label) (u : SysState), ¬ LStep s l u) : s.running = 0 := by
  obtain ⟨h1, h2, h3, h4, h5, h6, h7, h8, h9, h10⟩ := inv_of_trace htr
  by_contra hne
  have hpos : 0 < s.running := Nat.pos_of_ne_zero hne
  cases hdata : s.buffer.data with
  | cons be rest => exact hstuck _ _ (LStep.pop s be rest hpos hdata)
  | nil =>
    cases hfin : s.buffer.production_is_finished with
    | true => exact hstuck _ _ (LStep.exitc s hpos hdata hfin)
    | false =>
      have hclosed : s.prodClosed = false := by rw [← h5, hfin]
      cases hrem : s.prodRemaining with
      | cons p rest => exact hstuck _ _ (LStep.push s p rest hrem)
      | nil => exact hstuck _ _ (LStep.close s hrem hclosed)

/-! ## The concrete witness run -/

theorem witnessTrace_sound :
    Trace (initState NUM_CONSUMERS (random_permutation DATA_LENGTH (fun _ => 0)))
      witnessTrace witnessFinal := by
  show Trace (initState 8 witnessPerm) witnessTrace witnessFinal
  refine Trace.cons _ _ _ _ _ (LStep.push _ _ _ rfl) ?_
  refine Trace.cons _ _ _ _ _ (LStep.push _ _ _ rfl) ?_
  refine Trace.cons _ _ _ _ _ (LStep.push _ _ _ rfl) ?_
  refine Trace.cons _ _ _ _ _ (LStep.push _ _ _ rfl) ?_
  refine Trace.cons _ _ _ _ _ (LStep.push _ _ _ rfl) ?_
  refine Trace.cons _ _ _ _ _ (LStep.push _ _ _ rfl) ?_
  refine Trace.cons _ _ _ _ _ (LStep.push _ _ _ rfl) ?_
  refine Trace.cons _ _ _ _ _ (LStep.push _ _ _ rfl) ?_
  refine Trace.cons _ _ _ _ _ (LStep.push _ _ _ rfl) ?_
  refine Trace.cons _ _ _ _ _ (LStep.push _ _ _ rfl) ?_
  refine Trace.cons _ _ _ _ _ (LStep.push _ _ _ rfl) ?_
  refine Trace.cons _ _ _ _ _ (LStep.push _ _ _ rfl) ?_
  refine Trace.cons _ _ _ _ _ (LStep.push _ _ _ rfl) ?_
  refine Trace.cons _ _ _ _ _ (LStep.push _ _ _ rfl) ?_
  refine Trace.cons _ _ _ _ _ (LStep.push _ _ _ rfl) ?_
  refine Trace.cons _ _ _ _ _ (LStep.close _ rfl rfl) ?_
  refine Trace.cons _ _ _ _ _ (LStep.pop _ _ _ (by decide) rfl) ?_
  refine Trace.cons _ _ _ _ _ (LStep.pop _ _ _ (by decide) rfl) ?_
  refine Trace.cons _ _ _ _ _ (LStep.pop _ _ _ (by decide) rfl) ?_
  refine Trace.cons _ _ _ _ _ (LStep.pop _ _ _ (by decide) rfl) ?_
  refine Trace.cons _ _ _ _ _ (LStep.pop _ _ _ (by decide) rfl) ?_
  refine Trace.cons _ _ _ _ _ (LStep.pop _ _ _ (by decide) rfl) ?_
  refine Trace.cons _ _ _ _ _ (LStep.pop _ _ _ (by decide) rfl) ?_
  refine Trace.cons _ _ _ _ _ (LStep.pop _ _ _ (by decide) rfl) ?_
  refine Trace.cons _ _ _ _ _ (LStep.pop _ _ _ (by decide) rfl) ?_
  refine Trace.cons _ _ _ _ _ (LStep.pop _ _ _ (by decide) rfl) ?_
  refine Trace.cons _ _ _ _ _ (LStep.pop _ _ _ (by decide) rfl) ?_
  refine Trace.cons _ _ _ _ _ (LStep.pop _ _ _ (by decide) rfl) ?_
  refine Trace.cons _ _ _ _ _ (LStep.pop _ _ _ (by decide) rfl) ?_
  refine Trace.cons _ _ _ _ _ (LStep.pop _ _ _ (by decide) rfl) ?_
  refine Trace.cons _ _ _ _ _ (LStep.pop _ _ _ (by decide) rfl) ?_
  refine Trace.cons _ _ _ _ _ (LStep.exitc _ (by decide) rfl rfl) ?_
  refine Trace.cons _ _ _ _ _ (LStep.exitc _ (by decide) rfl rfl) ?_
  refine Trace.cons _ _ _ _ _ (LStep.exitc _ (by decide) rfl rfl) ?_
  refine Trace.cons _ _ _ _ _ (LStep.exitc _ (by decide) rfl rfl) ?_
  refine Trace.cons _ _ _ _ _ (LStep.exitc _ (by decide) rfl rfl) ?_
  refine Trace.cons _ _ _ _ _ (LStep.exitc _ (by decide) rfl rfl) ?_
  refine Trace.cons _ _ _ _ _ (LStep.exitc _ (by decide) rfl rfl) ?_
  refine Trace.cons _ _ _ _ _ (LStep.exitc _ (by decide) rfl rfl) ?_
  exact Trace.nil _

/-! ## Claims -/

/-- C1: after all consumer threads and the producer have been joined (all
consumers exited and close has run), every result slot `i` in `[0, 15)` holds
the compute function applied to its key: `results[i] = fibonacci(30 + i)`; in
particular `results[0] = fib 30 = 832040`, `results[1] = fib 31 = 1346269`,
and for every `i` in `[2, 15)`, `results[i] = results[i-1] + results[i-2]`. -/
theorem c1_per_slot_correctness (rng : Nat → Nat) (tr : List Label) (s : SysState)
    (htr : Trace (initState NUM_CONSUMERS (random_permutation DATA_LENGTH rng)) tr s)
    (hrun : s.running = 0) (hcl : s.prodClosed = true) :
    (∀ i : Int, 0 ≤ i → i < DATA_LENGTH → s.results i = fibonacci (DATA_START + i))
    ∧ s.results 0 = some 832040
    ∧ s.results 1 = some 1346269
    ∧ (∀ i : Int, 2 ≤ i → i < DATA_LENGTH → ∃ a b : Int,
        s.results (i - 2) = some a ∧ s.results (i - 1) = some b ∧
        s.results i = some (a + b)) := by
  obtain ⟨hpush, hpop, hdata, hres⟩ := terminal_state htr hrun hcl (by decide)
  have hmain : ∀ i : Int, 0 ≤ i → i < DATA_LENGTH → s.results i = fibonacci (DATA_START + i) := by
    intro i h0 h15
    rw [hres i, if_pos ((mem_random_permutation _ _ _).mpr ⟨h0, h15⟩)]
  have hds : DATA_START = (30 : Int) := rfl
  have hDL : DATA_LENGTH = (15 : Int) := by decide
  refine ⟨hmain, ?_, ?_, ?_⟩
  · rw [hmain 0 (by omega) (by omega), hds]
    rw [fibonacci_eq_fib 30 (30 + 0) (by decide) (by omega)]
    norm_num
  · rw [hmain 1 (by omega) (by omega), hds]
    rw [fibonacci_eq_fib 31 (30 + 1) (by decide) (by omega)]
    norm_num
  · intro i h2 hlt
    have e2 := hmain (i - 2) (by omega) (by omega)
    have e1 := hmain (i - 1) (by omega) (by omega)
    have e0 := hmain i (by omega) (by omega)
    rw [hds] at e2 e1 e0
    rw [fibonacci_eq_fib (30 + (i - 2)).toNat (30 + (i - 2)) rfl (by omega)] at e2
    rw [fibonacci_eq_fib (30 + (i - 1)).toNat (30 + (i - 1)) rfl (by omega)] at e1
    rw [fibonacci_eq_fib (30 + i).toNat (30 + i) rfl (by omega)] at e0
    have hk1 : (30 + (i - 1)).toNat = (30 + (i - 2)).toNat + 1 := by omega
    have hk0 : (30 + i).toNat = (30 + (i - 2)).toNat + 2 := by omega
    rw [hk1] at e1
    rw [hk0] at e0
    refine ⟨(Nat.fib ((30 + (i - 2)).toNat) : Int),
      (Nat.fib ((30 + (i - 2)).toNat + 1) : Int), e2, e1, ?_⟩
    rw [e0, @Nat.fib_add_two ((30 + (i - 2)).toNat)]
    push_cast
    rfl

/-- C1 witness: the concrete complete run `witnessTrace` ends in
`witnessFinal`, which satisfies the terminal hypotheses, and the conclusion
holds there. -/
theorem c1_per_slot_correctness_witness :
    witnessFinal.running = 0 ∧ witnessFinal.prodClosed = true ∧
    ((∀ i : Int, 0 ≤ i → i < DATA_LENGTH →
        witnessFinal.results i = fibonacci (DATA_START + i))
     ∧ witnessFinal.results 0 = some 832040
     ∧ witnessFinal.results 1 = some 1346269
     ∧ (∀ i : Int, 2 ≤ i → i < DATA_LENGTH → ∃ a b : Int,
         witnessFinal.results (i - 2) = some a ∧ witnessFinal.results (i - 1) = some b ∧
         witnessFinal.results i = some (a + b))) :=
  ⟨rfl, rfl,
    c1_per_slot_correctness (fun _ => 0) witnessTrace witnessFinal witnessTrace_sound rfl rfl⟩

/-- C2: a consumer may proceed past its wait only when the wait condition
holds (a consumer step is enabled only then, which renders blocking), and
given the wait condition its dequeue either (a) removes and returns the head
of a non-empty queue or (b) returns the Closed signal with the queue empty
and the closed flag set. -/
theorem c2_pop_contract :
    (∀ b : Buffer, waitCondition b = true →
      (∃ be rest, b.data = be :: rest ∧
        popStep b = (PopResult.item be, { b with data := rest }))
      ∨ (b.data = [] ∧ b.production_is_finished = true ∧
        popStep b = (PopResult.closed, b)))
    ∧ (∀ (s : SysState) (l : Label) (u : SysState), LStep s l u →
        ((∃ be, l = Label.pop be) ∨ l = Label.exitc) → waitCondition s.buffer = true) := by
  constructor
  · intro b hw
    cases b with
    | mk data flag =>
      cases data with
      | nil =>
        right
        refine ⟨rfl, ?_, rfl⟩
        unfold waitCondition at hw
        simpa using hw
      | cons be rest =>
        left
        exact ⟨be, rest, rfl, rfl⟩
  · intro s l u hstep hl
    cases hstep with
    | push p rest hrem =>
      exfalso
      rcases hl with ⟨be, hbe⟩ | hbe <;> cases hbe
    | close hrem hcl =>
      exfalso
      rcases hl with ⟨be, hbe⟩ | hbe <;> cases hbe
    | pop be rest hrun0 hdata =>
      unfold waitCondition
      rw [hdata]
      simp
    | exitc hrun0 hdata hfin =>
      unfold waitCondition
      rw [hfin]
      simp

/-- C2 witness: a buffer with one entry satisfies the wait condition and pops
its head; a pop step of the system is enabled there. -/
theorem c2_pop_contract_witness :
    waitCondition { data := [{ position := 0, number := 30 }],
                    production_is_finished := false } = true
    ∧ ((∃ be rest,
          ({ data := [{ position := 0, number := 30 }],
                      production_is_finished := false } : Buffer).data = be :: rest ∧
          popStep { data := [{ position := 0, number := 30 }],
                    production_is_finished := false }
            = (PopResult.item be, { data := rest, production_is_finished := false }))
       ∨ (({ data := [{ position := 0, number := 30 }],
                      production_is_finished := false } : Buffer).data = []
          ∧ ({ data := [{ position := 0, number := 30 }],
                        production_is_finished := false } : Buffer).production_is_finished
              = true
          ∧ popStep { data := [{ position := 0, number := 30 }],
                      production_is_finished := false }
            = (PopResult.closed, { data := [{ position := 0, number := 30 }],
                                   production_is_finished := false }))) :=
  ⟨rfl, c2_pop_contract.1
    { data := [{ position := 0, number := 30 }], production_is_finished := false } rfl⟩

/-- C3: in every complete run (all consumers exited after close), the
producer pushed all fifteen permutation positions, every pop matches them in
order (list equality, hence exactly N pops return a real item), and every
pushed position is popped exactly once. -/
theorem c3_no_loss_no_duplication (rng : Nat → Nat) (tr : List Label) (s : SysState)
    (htr : Trace (initState NUM_CONSUMERS (random_permutation DATA_LENGTH rng)) tr s)
    (hrun : s.running = 0) (hcl : s.prodClosed = true) :
    (popEntries tr).length = (random_permutation DATA_LENGTH rng).length
    ∧ (popEntries tr).length = 15
    ∧ pushedPos tr = random_permutation DATA_LENGTH rng
    ∧ poppedPos tr = pushedPos tr
    ∧ (∀ p : Int, p ∈ pushedPos tr → (poppedPos tr).count p = 1) := by
  obtain ⟨hpush, hpop, hdata, hres⟩ := terminal_state htr hrun hcl (by decide)
  have hlenpop : (poppedPos tr).length = (popEntries tr).length := by
    rw [poppedPos_eq_map, List.length_map]
  have hlen : (popEntries tr).length = (random_permutation DATA_LENGTH rng).length := by
    rw [← hlenpop, hpop]
  refine ⟨hlen, ?_, hpush, hpop.trans hpush.symm, ?_⟩
  · rw [hlen, length_random_permutation]
    decide
  · intro p hp
    rw [hpop]
    rw [hpush] at hp
    rw [count_random_permutation]
    rw [if_pos ((mem_random_permutation _ _ _).mp hp)]

/-- C3 witness: instantiated on the concrete complete run. -/
theorem c3_no_loss_no_duplication_witness :
    witnessFinal.running = 0 ∧ witnessFinal.prodClosed = true ∧
    ((popEntries witnessTrace).length
        = (random_permutation DATA_LENGTH (fun _ => 0)).length
     ∧ (popEntries witnessTrace).length = 15
     ∧ pushedPos witnessTrace = random_permutation DATA_LENGTH (fun _ => 0)
     ∧ poppedPos witnessTrace = pushedPos witnessTrace
     ∧ (∀ p : Int, p ∈ pushedPos witnessTrace →
          (poppedPos witnessTrace).count p = 1)) :=
  ⟨rfl, rfl,
    c3_no_loss_no_duplication (fun _ => 0) witnessTrace witnessFinal witnessTrace_sound rfl rfl⟩

/-- C4 counterexample: contrary to the claim, a push performed with the
closed flag already set does NOT fail — the code has no `ClosedQueueError`
path and appends the item; the specification's contract (`pushSpec`) would
have failed on the same input. -/
theorem c4_push_after_close_cex :
    bufferPush { data := [], production_is_finished := true }
        { position := 0, number := 30 }
      = { data := [{ position := 0, number := 30 }], production_is_finished := true }
    ∧ pushSpec { data := [], production_is_finished := true }
        { position := 0, number := 30 }
      = Except.error ClosedQueueError.closedQueueError :=
  ⟨rfl, rfl⟩

/-- C4 (amended): the code's push appends unconditionally and never signals
any error (there is no `ClosedQueueError` in the code); however, in every run
of the program each push step occurs while the closed flag is still false, so
no push ever happens after close. -/
theorem c4_push_unconditional_never_after_close :
    (∀ (b : Buffer) (be : BufferEntry),
      (bufferPush b be).data = b.data ++ [be]
      ∧ (bufferPush b be).production_is_finished = b.production_is_finished)
    ∧ (∀ (c : Nat) (perm : List Int) (tr : List Label) (s u : SysState) (p : Int),
        Trace (initState c perm) tr s → LStep s (Label.push p) u →
        s.buffer.production_is_finished = false) := by
  constructor
  · intro b be
    exact ⟨rfl, rfl⟩
  · intro c perm tr s u p htr hstep
    obtain ⟨h1, h2, h3, h4, h5, h6, h7, h8, h9, h10⟩ := inv_of_trace htr
    cases hstep with
    | push p rest hrem =>
      rw [h5]
      cases hpc : s.prodClosed with
      | false => rfl
      | true =>
        exfalso
        rw [h6 hpc] at hrem
        cases hrem

/-- C4 witness: a push step from the initial state with one pending item is
taken with the closed flag false, and the push operation appends. -/
theorem c4_push_unconditional_never_after_close_witness :
    LStep (initState 8 [0]) (Label.push 0)
      { buffer := { data := [{ position := 0, number := 30 }],
                    production_is_finished := false },
        prodRemaining := [], prodClosed := false, running := 8,
        results := fun _ => none }
    ∧ ((bufferPush { data := [], production_is_finished := false }
          { position := 0, number := 30 }).data
        = [{ position := 0, number := 30 }])
    ∧ (initState 8 [0]).buffer.production_is_finished = false :=
  ⟨LStep.push (initState 8 [0]) 0 [] rfl,
   (c4_push_unconditional_never_after_close.1
      { data := [], production_is_finished := false } { position := 0, number := 30 }).1,
   c4_push_unconditional_never_after_close.2 8 [0] [] (initState 8 [0]) _ 0
     (Trace.nil _) (LStep.push (initState 8 [0]) 0 [] rfl)⟩

/-- C5: the closed flag is monotone — along every execution from a state in
which `production_is_finished` is true, it stays true in every later state. -/
theorem c5_closed_monotone {s : SysState} {tr : List Label} {u : SysState}
    (htr : Trace s tr u) (h : s.buffer.production_is_finished = true) :
    u.buffer.production_is_finished = true := by
  induction htr with
  | nil s => exact h
  | cons s l t ls u hstep hrest ih =>
    apply ih
    cases hstep with
    | push p rest hrem => simpa [bufferPush] using h
    | close hrem hcl => simp [bufferClose]
    | pop be rest h1 h2 => simpa using h
    | exitc h1 h2 h3 => simpa using h

/-- C5 witness: a one-step run from a closed state keeps the flag true. -/
theorem c5_closed_monotone_witness :
    ({ buffer := { data := [], production_is_finished := true },
       prodRemaining := [], prodClosed := true, running := 1,
       results := fun _ => none } : SysState).buffer.production_is_finished = true
    ∧ ({ buffer := { data := [], production_is_finished := true },
         prodRemaining := [], prodClosed := true, running := 0,
         results := fun _ => none } : SysState).buffer.production_is_finished = true := by
  have htr : Trace
      { buffer := { data := [], production_is_finished := true },
        prodRemaining := [], prodClosed := true, running := 1,
        results := fun _ => none }
      [Label.exitc]
      { buffer := { data := [], production_is_finished := true },
        prodRemaining := [], prodClosed := true, running := 0,
        results := fun _ => none } :=
    Trace.cons _ _ _ _ _ (LStep.exitc _ (by decide) rfl rfl) (Trace.nil _)
  exact ⟨rfl, c5_closed_monotone htr rfl⟩

/-- C6: close is idempotent — closing twice gives the same state as closing
once, the flag is set, and after a close the consumers' wait condition holds
(no waiter can stay blocked), with no failure path. -/
theorem c6_close_idempotent (b : Buffer) :
    bufferClose (bufferClose b) = bufferClose b
    ∧ (bufferClose b).production_is_finished = true
    ∧ waitCondition (bufferClose b) = true := by
  refine ⟨rfl, rfl, ?_⟩
  unfold waitCondition bufferClose
  simp

/-- C6 witness: instantiated at a concrete open buffer. -/
theorem c6_close_idempotent_witness :
    bufferClose (bufferClose { data := [], production_is_finished := false })
      = bufferClose { data := [], production_is_finished := false }
    ∧ (bufferClose { data := [], production_is_finished := false }).production_is_finished
      = true
    ∧ waitCondition (bufferClose { data := [], production_is_finished := false }) = true :=
  c6_close_idempotent { data := [], production_is_finished := false }

/-- C7: wake-up asymmetry of the producer — in the producer's event trace,
every push is immediately followed by `notify_one` (waking at least one
blocked consumer), and setting the finished flag is immediately followed by
`notify_all` (waking all blocked consumers); `notify_all` happens exactly
once (only at close), while `notify_one` happens once per pushed item. -/
theorem c7_notify_asymmetry (perm : List Int) :
    (∀ (i : Nat) (be : BufferEntry),
        (producerEvents perm)[i]? = some (ProducerEvent.pushItem be) →
        (producerEvents perm)[i+1]? = some ProducerEvent.notifyOne)
    ∧ (∀ i : Nat, (producerEvents perm)[i]? = some ProducerEvent.setFinished →
        (producerEvents perm)[i+1]? = some ProducerEvent.notifyAll)
    ∧ (producerEvents perm).count ProducerEvent.notifyAll = 1
    ∧ (producerEvents perm).count ProducerEvent.setFinished = 1
    ∧ (producerEvents perm).countP isPush = perm.length
    ∧ (producerEvents perm).count ProducerEvent.notifyOne = perm.length := by
  induction perm with
  | nil =>
    refine ⟨?_, ?_, rfl, rfl, rfl, rfl⟩
    · intro i be h
      rcases i with _ | _ | n <;> simp [producerEvents] at h
    · intro i h
      rcases i with _ | _ | n <;> simp [producerEvents] at h ⊢
  | cons p rest ih =>
    obtain ⟨ih1, ih2, ih3, ih4, ih5, ih6⟩ := ih
    have hev : producerEvents (p :: rest)
        = ProducerEvent.pushItem { position := p, number := DATA_START + p }
          :: ProducerEvent.notifyOne :: producerEvents rest := by
      simp [producerEvents]
    rw [hev]
    refine ⟨?_, ?_, ?_, ?_, ?_, ?_⟩
    · intro i be h
      rcases i with _ | _ | n
      · simp
      · simp at h
      · simp at h ⊢
        exact ih1 n be h
    · intro i h
      rcases i with _ | _ | n
      · simp at h
      · simp at h
      · simp at h ⊢
        exact ih2 n h
    · simp [List.count_cons, ih3]
    · simp [List.count_cons, ih4]
    · simp [List.countP_cons, ih5, isPush]
    · simp [List.count_cons, ih6]

/-- C7 witness: instantiated on the one-item permutation `[0]`. -/
theorem c7_notify_asymmetry_witness :
    (producerEvents [0])[0]?
        = some (ProducerEvent.pushItem { position := 0, number := 30 })
    ∧ (producerEvents [0])[1]? = some ProducerEvent.notifyOne
    ∧ (producerEvents [0]).count ProducerEvent.notifyAll = 1
    ∧ (producerEvents [0]).count ProducerEvent.notifyOne = ([0] : List Int).length :=
  ⟨rfl,
   (c7_notify_asymmetry [0]).1 0 { position := 0, number := 30 } rfl,
   (c7_notify_asymmetry [0]).2.2.1,
   (c7_notify_asymmetry [0]).2.2.2.2.2⟩

/-- C8: termination — with at least one consumer and the producer program
that closes after its last push, every execution has bounded length (the
measure shrinks at every step), and in any reachable state where no step is
enabled any more, every worker has exited its loop. -/
theorem c8_termination (c : Nat) (perm : List Int) (tr : List Label) (s : SysState)
    (_hc : 1 ≤ c)
    (htr : Trace (initState c perm) tr s) :
    tr.length ≤ 2 * perm.length + 1 + c
    ∧ ((∀ (l : Label) (u : SysState), ¬ LStep s l u) → s.running = 0) := by
  constructor
  · have h := trace_length_le htr
    have hinit : sysMeasure (initState c perm) = 2 * perm.length + 1 + c := by
      unfold sysMeasure initState
      simp
    omega
  · intro hstuck
    exact stuck_running_zero htr hstuck

/-- C8 witness: the concrete complete run has length 39 = 2*15 + 1 + 8. -/
theorem c8_termination_witness :
    1 ≤ NUM_CONSUMERS
    ∧ (witnessTrace.length
        ≤ 2 * (random_permutation DATA_LENGTH (fun _ => 0)).length + 1 + NUM_CONSUMERS
       ∧ ((∀ (l : Label) (u : SysState), ¬ LStep witnessFinal l u) →
           witnessFinal.running = 0)) :=
  ⟨by decide,
   c8_termination NUM_CONSUMERS (random_permutation DATA_LENGTH (fun _ => 0))
     witnessTrace witnessFinal (by decide) witnessTrace_sound⟩

/-- C9: the permutation contains each integer in `[0, DATA_LENGTH)` exactly
once, so along every execution all pushed positions are distinct and in
bounds, and every consumer write (`results[be.position]`) targets a distinct
in-bounds slot of the length-`DATA_LENGTH` result array. -/
theorem c9_writes_in_bounds (rng : Nat → Nat) (tr : List Label) (s : SysState)
    (htr : Trace (initState NUM_CONSUMERS (random_permutation DATA_LENGTH rng)) tr s) :
    (random_permutation DATA_LENGTH rng).Nodup
    ∧ (∀ p : Int, p ∈ random_permutation DATA_LENGTH rng ↔ 0 ≤ p ∧ p < DATA_LENGTH)
    ∧ (pushedPos tr).Nodup
    ∧ (∀ p ∈ pushedPos tr, 0 ≤ p ∧ p < DATA_LENGTH)
    ∧ (poppedPos tr).Nodup
    ∧ (∀ be ∈ popEntries tr, 0 ≤ be.position ∧ be.position < DATA_LENGTH) := by
  obtain ⟨h1, h2, h3, h4, h5, h6, h7, h8, h9, h10⟩ := inv_of_trace htr
  have hpushnd : (pushedPos tr).Nodup := by
    have hnd := nodup_random_permutation DATA_LENGTH rng
    rw [h1] at hnd
    exact hnd.of_append_left
  have hpushmem : ∀ p ∈ pushedPos tr, 0 ≤ p ∧ p < DATA_LENGTH := by
    intro p hp
    have hmem : p ∈ random_permutation DATA_LENGTH rng := by
      rw [h1]
      exact List.mem_append_left _ hp
    exact (mem_random_permutation _ _ _).mp hmem
  have hpopnd : (poppedPos tr).Nodup := by
    have hnd2 := hpushnd
    rw [h2] at hnd2
    exact hnd2.of_append_left
  refine ⟨nodup_random_permutation DATA_LENGTH rng,
    fun p => mem_random_permutation DATA_LENGTH rng p, hpushnd, hpushmem, hpopnd, ?_⟩
  intro be hbe
  apply hpushmem
  rw [h2]
  apply List.mem_append_left
  rw [poppedPos_eq_map]
  exact List.mem_map_of_mem _ hbe

/-- C9 witness: instantiated on the concrete run. -/
theorem c9_writes_in_bounds_witness :
    (random_permutation DATA_LENGTH (fun _ => 0)).Nodup
    ∧ (∀ p : Int,
        p ∈ random_permutation DATA_LENGTH (fun _ => 0) ↔ 0 ≤ p ∧ p < DATA_LENGTH)
    ∧ (pushedPos witnessTrace).Nodup
    ∧ (∀ p ∈ pushedPos witnessTrace, 0 ≤ p ∧ p < DATA_LENGTH)
    ∧ (poppedPos witnessTrace).Nodup
    ∧ (∀ be ∈ popEntries witnessTrace, 0 ≤ be.position ∧ be.position < DATA_LENGTH) :=
  c9_writes_in_bounds (fun _ => 0) witnessTrace witnessFinal witnessTrace_sound

/-- C10: `fibonacci` is total for every argument at least 1 (the recursion on
`n-1` and `n-2` is well-founded and bottoms out at 1), and its assertion
`n >= 1` never fires in this program: every key a consumer passes equals
`DATA_START + position` with `DATA_START = 30` and `position >= 0`, so the
computation always yields a value. -/
theorem c10_fibonacci_total (rng : Nat → Nat) (tr : List Label) (s : SysState)
    (htr : Trace (initState NUM_CONSUMERS (random_permutation DATA_LENGTH rng)) tr s) :
    (∀ n : Int, 1 ≤ n → (fibonacci n).isSome)
    ∧ (∀ be ∈ popEntries tr,
        be.number = DATA_START + be.position ∧ 0 ≤ be.position
        ∧ 1 ≤ be.number ∧ (fibonacci be.number).isSome) := by
  obtain ⟨h1, h2, h3, h4, h5, h6, h7, h8, h9, h10⟩ := inv_of_trace htr
  refine ⟨fun n hn => fibonacci_isSome n hn, ?_⟩
  intro be hbe
  have hnum := h4 be hbe
  have hposmem : be.position ∈ pushedPos tr := by
    rw [h2]
    apply List.mem_append_left
    rw [poppedPos_eq_map]
    exact List.mem_map_of_mem _ hbe
  have hmem : be.position ∈ random_permutation DATA_LENGTH rng := by
    rw [h1]
    exact List.mem_append_left _ hposmem
  have hb := (mem_random_permutation _ _ _).mp hmem
  have hds : DATA_START = (30 : Int) := rfl
  have h1n : 1 ≤ be.number := by
    rw [hnum, hds]
    omega
  exact ⟨hnum, hb.1, h1n, fibonacci_isSome _ h1n⟩

/-- C10 witness: instantiated on the concrete run. -/
theorem c10_fibonacci_total_witness :
    (∀ n : Int, 1 ≤ n → (fibonacci n).isSome)
    ∧ (∀ be ∈ popEntries witnessTrace,
        be.number = DATA_START + be.position ∧ 0 ≤ be.position
        ∧ 1 ≤ be.number ∧ (fibonacci be.number).isSome) :=
  c10_fibonacci_total (fun _ => 0) witnessTrace witnessFinal witnessTrace_sound

end ProducerConsumer
